import Mathlib

set_option maxRecDepth 10000

/-!
Verification of the nearest-point minimum-with-index reduction from
`1-Day-Tutorial/Exercises/04_05_NearestPoint/Kokkos-Struct/nearest_point.cpp`.

The C++ program scans N points in 3-D space and finds the index of the point
with the smallest squared Euclidean distance to a fixed query point, using a
custom reduction struct `MinFinder` whose `operator +=` keeps the candidate
with the strictly smaller `value`.  Coordinates are C `double`s; here they are
embedded as exact rationals, so the floating-point literal `1.0e200` of the
default constructor becomes the exact rational `10 ^ 200`.
-/

/-- One 3-D point: three coordinates, as stored in one row of the
`Kokkos::View<double*[3]> points` array (nearest_point.cpp line 111). -/
structure Point where
  x : ℚ
  y : ℚ
  z : ℚ
deriving DecidableEq

/-- The reduction struct `MinFinder` (nearest_point.cpp lines 53-85):
a candidate `value` (a squared distance) together with the `index` it came
from. -/
structure MinFinder where
  value : ℚ
  index : ℤ
deriving DecidableEq

/-- The literal `1.0e200` used by the default constructor
`MinFinder(): value(1.0e200), index(-1)` (lines 59-60), read as an exact
rational. -/
def bigVal : ℚ := 10 ^ 200

/-- The default-constructed `MinFinder` (lines 59-60): `value = 1.0e200`,
`index = -1`.  This is the value every reduction accumulator starts from. -/
def minFinderInit : MinFinder := ⟨bigVal, -1⟩

/-- The combine operation `f += g` of `MinFinder::operator +=`
(lines 78-84): overwrite the accumulator `f` with `g` exactly when
`g.value < f.value`; on a tie or when `g.value` is larger, keep `f`. -/
def combine (f g : MinFinder) : MinFinder :=
  if g.value < f.value then g else f

/-- The point array: an ordered sequence of `N` points, indexed from 0
(the `points` View of line 111, populated before the reduction runs). -/
structure PointStore where
  points : List Point
deriving DecidableEq

/-- Number of stored points (`num_points` in the source). -/
def PointStore.N (s : PointStore) : ℕ := s.points.length

/-- Coordinate lookup `points(i, 0..2)` as a whole point; out-of-range
indices (never reached by the reduction, which visits `[0, N)` only)
default to the origin. -/
def PointStore.get (s : PointStore) (i : ℕ) : Point := s.points.getD i ⟨0, 0, 0⟩

/-- Squared Euclidean distance from query `q` to stored point `p`, exactly
as computed in the reduction lambda (lines 145-149):
`dx = search_x - points(i,0)` etc., then `dist2 = dx*dx + dy*dy + dz*dz`. -/
def dist2 (q p : Point) : ℚ :=
  let dx := q.x - p.x
  let dy := q.y - p.y
  let dz := q.z - p.z
  dx * dx + dy * dy + dz * dz

/-- Squared distance of the query to the i-th stored point. -/
def dists (s : PointStore) (q : Point) (i : ℕ) : ℚ := dist2 q (s.get i)

/-- One iteration of the reduction lambda (lines 143-154): build the
candidate `tmp = MinFinder(dist2, i)` and fold it into the accumulator via
`f += tmp`. -/
def step (s : PointStore) (q : Point) (f : MinFinder) (i : ℕ) : MinFinder :=
  combine f ⟨dists s q i, (i : ℤ)⟩

/-- The whole reduction of lines 137-155, as the sequential reference
semantics: fold the per-index step over `0, 1, ..., N-1` starting from the
default-constructed accumulator.  (Parallel schedules are modelled
separately by `foldChunk` and `mergeAll`.) -/
def reduce (s : PointStore) (q : Point) : MinFinder :=
  List.foldl (step s q) minFinderInit (List.range s.N)

/-- The result vocabulary of the specification: either `Found d idx` or
`Empty` (no candidate). -/
inductive ReductionResult where
  | Empty : ReductionResult
  | Found : ℚ → ℤ → ReductionResult
deriving DecidableEq

/-- Reading of the printed `MinFinder` in the spec result vocabulary: every
index actually written by the fold is a loop index `i ≥ 0`, so a
non-negative index means `Found` and the sentinel `-1` of the default
constructor means no candidate was ever taken, i.e. `Empty`. -/
def MinFinder.toResult (f : MinFinder) : ReductionResult :=
  if 0 ≤ f.index then .Found f.value f.index else .Empty

/-- Partial reduction of one chunk of indices, the work of one parallel
worker: fold the chunk through the step function starting from a fresh
default-constructed accumulator, as Kokkos gives each worker an
`init`-constructed partial. -/
def foldChunk (s : PointStore) (q : Point) (c : List ℕ) : MinFinder :=
  List.foldl (step s q) minFinderInit c

/-- Final merge of the per-worker partial results through `operator +=`,
starting from the default-constructed destination `minf` (line 140). -/
def mergeAll (l : List MinFinder) : MinFinder :=
  List.foldl combine minFinderInit l

/-- The benchmark repeat loop of lines 137-157: each iteration constructs a
fresh `MinFinder minf`, runs the reduction against the current store, and
records the printed result.  The store is threaded through so that leaving
it unchanged is a statement, not a convention. -/
def runRepeats (s : PointStore) (q : Point) : ℕ → PointStore × List MinFinder
  | 0 => (s, [])
  | n + 1 =>
    let prev := runRepeats s q n
    (prev.1, prev.2 ++ [reduce prev.1 q])

/-- Scenario store of spec section 8: three points (0,0,0), (10,0,0), (3,4,0). -/
def store3 : PointStore := ⟨[⟨0, 0, 0⟩, ⟨10, 0, 0⟩, ⟨3, 4, 0⟩]⟩

/-- Scenario query of spec section 8: the point (3,4,0). -/
def query3 : Point := ⟨3, 4, 0⟩

/-- A one-point store used to exhibit the `1.0e200` initial value showing
through: its single point sits at the origin. -/
def farStore : PointStore := ⟨[⟨0, 0, 0⟩]⟩

/-- A two-point store with both points at the origin, for the tie case of
the far query. -/
def farStore2 : PointStore := ⟨[⟨0, 0, 0⟩, ⟨0, 0, 0⟩]⟩

/-- A finite query so distant that the squared distance to the origin is
exactly `10 ^ 200`, which the strict `<` of `operator +=` never accepts
against the initial value `1.0e200`. -/
def farQuery : Point := ⟨10 ^ 100, 0, 0⟩

/-- A store with an exact distance tie between indices 0 and 2. -/
def tieStore : PointStore := ⟨[⟨0, 0, 0⟩, ⟨1, 0, 0⟩, ⟨0, 0, 0⟩]⟩

/-- A two-point store whose unique nearest point to the far query is index
0, yet both squared distances reach the initial `1.0e200`. -/
def farStore3 : PointStore := ⟨[⟨0, 0, 0⟩, ⟨10 ^ 100, 10 ^ 100, 10 ^ 100⟩]⟩

/-- The origin, used as a query point. -/
def originQ : Point := ⟨0, 0, 0⟩

/-- IEEE-style double value for the non-finite coordinate analysis: a
finite value carried exactly, or NaN.  Only the behaviour the reduction
lambda exercises is modelled: subtraction, multiplication, addition and
the `<` comparison, which under IEEE 754 is false whenever either operand
is NaN. -/
inductive DblVal where
  | fin : ℚ → DblVal
  | nan : DblVal
deriving DecidableEq

/-- IEEE subtraction on finite-or-NaN operands: a NaN operand produces NaN. -/
def DblVal.sub : DblVal → DblVal → DblVal
  | .fin a, .fin b => .fin (a - b)
  | _, _ => .nan

/-- IEEE multiplication on finite-or-NaN operands: a NaN operand produces NaN. -/
def DblVal.mul : DblVal → DblVal → DblVal
  | .fin a, .fin b => .fin (a * b)
  | _, _ => .nan

/-- IEEE addition on finite-or-NaN operands: a NaN operand produces NaN. -/
def DblVal.add : DblVal → DblVal → DblVal
  | .fin a, .fin b => .fin (a + b)
  | _, _ => .nan

/-- IEEE less-than: false whenever either operand is NaN. -/
def DblVal.lt : DblVal → DblVal → Bool
  | .fin a, .fin b => decide (a < b)
  | _, _ => false

/-- A 3-D point with IEEE finite-or-NaN coordinates, for the non-finite
coordinate analysis of the reduction lambda. -/
structure DPoint where
  x : DblVal
  y : DblVal
  z : DblVal
deriving DecidableEq

/-- The `MinFinder` accumulator over IEEE finite-or-NaN values. -/
structure MinFinderD where
  value : DblVal
  index : ℤ
deriving DecidableEq

/-- The default-constructed accumulator (lines 59-60) over IEEE values:
the finite literal `1.0e200` and the sentinel index `-1`. -/
def minFinderInitD : MinFinderD := ⟨.fin bigVal, -1⟩

/-- The combine operation of `operator +=` (lines 79-84) over IEEE values:
the accumulator is overwritten exactly when the IEEE comparison
`f.value < value` holds, which is never the case against a NaN. -/
def combineD (f g : MinFinderD) : MinFinderD :=
  if g.value.lt f.value then g else f

/-- Point lookup for the IEEE model; out-of-range indices default to the
origin as in the exact-rational model. -/
def getDP : List DPoint → ℕ → DPoint
  | [], _ => ⟨.fin 0, .fin 0, .fin 0⟩
  | p :: _, 0 => p
  | _ :: ps, i + 1 => getDP ps i

/-- The squared distance of the reduction lambda (lines 145-149) computed
with IEEE finite-or-NaN semantics: `(dx*dx + dy*dy) + dz*dz` after the
componentwise subtractions, so any NaN coordinate makes the result NaN. -/
def dist2D (q p : DPoint) : DblVal :=
  let dx := q.x.sub p.x
  let dy := q.y.sub p.y
  let dz := q.z.sub p.z
  ((dx.mul dx).add (dy.mul dy)).add (dz.mul dz)

/-- One iteration of the reduction lambda over IEEE values. -/
def stepD (ps : List DPoint) (q : DPoint) (f : MinFinderD) (i : ℕ) : MinFinderD :=
  combineD f ⟨dist2D q (getDP ps i), (i : ℤ)⟩

/-- The whole reduction of lines 137-155 over IEEE values: the fold runs
to completion unconditionally — the source has no error path that could
interrupt it. -/
def reduceD (ps : List DPoint) (q : DPoint) : MinFinderD :=
  List.foldl (stepD ps q) minFinderInitD (List.range ps.length)

/-- A query whose x coordinate is NaN, reaching the distance computation. -/
def nanQuery : DPoint := ⟨.nan, .fin 0, .fin 0⟩

/-- The origin with finite IEEE coordinates. -/
def originD : DPoint := ⟨.fin 0, .fin 0, .fin 0⟩

/-- Helper: the value component of a combine is the minimum of the two
value components. -/
theorem combine_value (f g : MinFinder) : (combine f g).value = min f.value g.value := by
  unfold combine
  rcases lt_or_le g.value f.value with h | h
  · rw [if_pos h, min_eq_right h.le]
  · rw [if_neg (not_lt.mpr h), min_eq_left h]

/-- Helper: a combine returns one of its two operands, never a fresh pair. -/
theorem combine_cases (f g : MinFinder) : combine f g = f ∨ combine f g = g := by
  unfold combine
  split
  · exact Or.inr rfl
  · exact Or.inl rfl

/-- Helper: the value of a fold of steps is the fold of minima of the
corresponding squared distances. -/
theorem foldl_step_value (s : PointStore) (q : Point) :
    ∀ (c : List ℕ) (f : MinFinder),
      (List.foldl (step s q) f c).value = List.foldl min f.value (c.map (dists s q)) := by
  intro c
  induction c with
  | nil => intro f; rfl
  | cons i c ih =>
    intro f
    simp only [List.foldl_cons, List.map_cons]
    rw [ih (step s q f i)]
    have hv : (step s q f i).value = min f.value (dists s q i) := combine_value f _
    rw [hv]

/-- Helper: the value of a fold of combines is the fold of minima of the
operand values. -/
theorem foldl_combine_value :
    ∀ (l : List MinFinder) (f : MinFinder),
      (List.foldl combine f l).value = List.foldl min f.value (l.map MinFinder.value) := by
  intro l
  induction l with
  | nil => intro f; rfl
  | cons p l ih =>
    intro f
    simp only [List.foldl_cons, List.map_cons]
    rw [ih (combine f p), combine_value f p]

/-- Helper: folding min never rises above the initial accumulator. -/
theorem foldl_min_le_init : ∀ (l : List ℚ) (a : ℚ), List.foldl min a l ≤ a := by
  intro l
  induction l with
  | nil => intro a; exact le_refl a
  | cons x l ih =>
    intro a
    simp only [List.foldl_cons]
    exact le_trans (ih (min a x)) (min_le_left a x)

/-- Helper: folding min is a lower bound of every list element. -/
theorem foldl_min_le_mem :
    ∀ (l : List ℚ) (a x : ℚ), x ∈ l → List.foldl min a l ≤ x := by
  intro l
  induction l with
  | nil => intro a x hx; cases hx
  | cons y l ih =>
    intro a x hx
    simp only [List.foldl_cons]
    rcases List.mem_cons.mp hx with h | h
    · subst h
      exact le_trans (foldl_min_le_init l (min a x)) (min_le_right a x)
    · exact ih (min a y) x h

/-- Helper: a minimum taken before a min-fold can be pushed into the
initial accumulator. -/
theorem min_foldl_min :
    ∀ (l : List ℚ) (a b : ℚ), List.foldl min (min a b) l = min a (List.foldl min b l) := by
  intro l
  induction l with
  | nil => intro a b; rfl
  | cons x l ih =>
    intro a b
    simp only [List.foldl_cons]
    rw [min_assoc, ih]

/-- Helper: a min-fold is invariant under permutation of the list. -/
theorem foldl_min_perm :
    ∀ {l₁ l₂ : List ℚ}, l₁.Perm l₂ → ∀ a, List.foldl min a l₁ = List.foldl min a l₂ := by
  intro l₁ l₂ hp
  induction hp with
  | nil => intro a; rfl
  | cons x _ ih =>
    intro a
    simp only [List.foldl_cons]
    exact ih _
  | swap x y l =>
    intro a
    simp only [List.foldl_cons]
    rw [min_right_comm]
  | trans _ _ ih₁ ih₂ =>
    intro a
    rw [ih₁ a, ih₂ a]

/-- Helper: a min-fold over per-chunk min-folds collapses to a single
min-fold over the flattened chunks, as long as the outer accumulator is no
larger than the per-chunk seed. -/
theorem foldl_min_chunks (d : ℕ → ℚ) :
    ∀ (css : List (List ℕ)) (a b : ℚ), a ≤ b →
      List.foldl min a (css.map fun c => List.foldl min b (c.map d)) =
        List.foldl min a (css.flatten.map d) := by
  intro css
  induction css with
  | nil => intro a b _; rfl
  | cons c css ih =>
    intro a b hab
    simp only [List.map_cons, List.foldl_cons, List.flatten_cons, List.map_append,
      List.foldl_append]
    rw [show min a (List.foldl min b (c.map d)) = List.foldl min a (c.map d) from by
      rw [← min_foldl_min, min_eq_left hab]]
    exact ih _ b (le_trans (foldl_min_le_init (c.map d) a) hab)

/-- Helper: a fold of steps either leaves the accumulator untouched or
lands exactly on the candidate of one of the visited indices. -/
theorem foldl_step_mem (s : PointStore) (q : Point) :
    ∀ (c : List ℕ) (f : MinFinder),
      List.foldl (step s q) f c = f ∨
        ∃ i ∈ c, List.foldl (step s q) f c = ⟨dists s q i, (i : ℤ)⟩ := by
  intro c
  induction c with
  | nil => intro f; exact Or.inl rfl
  | cons i c ih =>
    intro f
    simp only [List.foldl_cons]
    rcases ih (step s q f i) with h | ⟨j, hj, hEq⟩
    · rw [h]
      unfold step combine
      split
      · exact Or.inr ⟨i, List.mem_cons_self i c, rfl⟩
      · exact Or.inl rfl
    · exact Or.inr ⟨j, List.mem_cons_of_mem i hj, hEq⟩

/-- Helper: a fold of combines either leaves the accumulator untouched or
returns one of the folded elements. -/
theorem foldl_combine_mem :
    ∀ (l : List MinFinder) (f : MinFinder),
      List.foldl combine f l = f ∨ List.foldl combine f l ∈ l := by
  intro l
  induction l with
  | nil => intro f; exact Or.inl rfl
  | cons p l ih =>
    intro f
    simp only [List.foldl_cons]
    rcases ih (combine f p) with h | h
    · rw [h]
      rcases combine_cases f p with h' | h'
      · exact Or.inl h'
      · rw [h']
        exact Or.inr (List.mem_cons_self p l)
    · exact Or.inr (List.mem_cons_of_mem p h)

/-- Helper: complete characterisation of the sequential fold over the index
range: either no squared distance dips below the initial `1.0e200` and the
accumulator stays at its default, or the result is the candidate of the
smallest index achieving the minimum squared distance. -/
theorem reduce_spec (s : PointStore) (q : Point) :
    ∀ (N : ℕ),
      (List.foldl (step s q) minFinderInit (List.range N) = minFinderInit ∧
        ∀ j, j < N → bigVal ≤ dists s q j) ∨
      (∃ i, i < N ∧
        List.foldl (step s q) minFinderInit (List.range N) = ⟨dists s q i, (i : ℤ)⟩ ∧
        dists s q i < bigVal ∧ (∀ j, j < N → dists s q i ≤ dists s q j) ∧
        ∀ j, j < i → dists s q i < dists s q j) := by
  intro N
  induction N with
  | zero =>
    left
    exact ⟨rfl, fun j hj => absurd hj (Nat.not_lt_zero j)⟩
  | succ N ih =>
    rw [List.range_succ, List.foldl_append, List.foldl_cons, List.foldl_nil]
    rcases ih with ⟨hEq, hAll⟩ | ⟨i, hiN, hEq, hlt, hmin, htie⟩
    · rw [hEq]
      by_cases h : dists s q N < bigVal
      · right
        refine ⟨N, Nat.lt_succ_self N, ?_, h, ?_, ?_⟩
        · simp only [step, combine, minFinderInit]
          rw [if_pos h]
        · intro j hj
          rcases Nat.lt_succ_iff_lt_or_eq.mp hj with h' | h'
          · exact le_trans h.le (hAll j h')
          · subst h'; exact le_refl _
        · intro j hj
          exact lt_of_lt_of_le h (hAll j hj)
      · left
        constructor
        · simp only [step, combine, minFinderInit]
          rw [if_neg h]
        · intro j hj
          rcases Nat.lt_succ_iff_lt_or_eq.mp hj with h' | h'
          · exact hAll j h'
          · subst h'; exact not_lt.mp h
    · rw [hEq]
      by_cases h : dists s q N < dists s q i
      · right
        refine ⟨N, Nat.lt_succ_self N, ?_, lt_trans h hlt, ?_, ?_⟩
        · simp only [step, combine]
          rw [if_pos h]
        · intro j hj
          rcases Nat.lt_succ_iff_lt_or_eq.mp hj with h' | h'
          · exact le_trans h.le (hmin j h')
          · subst h'; exact le_refl _
        · intro j hj
          exact lt_of_lt_of_le h (hmin j hj)
      · right
        refine ⟨i, Nat.lt_succ_of_lt hiN, ?_, hlt, ?_, htie⟩
        · simp only [step, combine]
          rw [if_neg h]
        · intro j hj
          rcases Nat.lt_succ_iff_lt_or_eq.mp hj with h' | h'
          · exact hmin j h'
          · subst h'; exact not_lt.mp h

/-- Helper: the value of the sequential reduction is the min-fold of all
squared distances seeded with the initial `1.0e200`. -/
theorem reduce_value (s : PointStore) (q : Point) :
    (reduce s q).value = List.foldl min bigVal ((List.range s.N).map (dists s q)) := by
  unfold reduce
  rw [foldl_step_value]
  simp only [minFinderInit]

/-- Helper: merging any permutation of the per-chunk partial results gives
the min-fold over the flattened chunk contents. -/
theorem mergeAll_value (s : PointStore) (q : Point) (css : List (List ℕ))
    (ps : List MinFinder) (hmerge : ps.Perm (css.map (foldChunk s q))) :
    (mergeAll ps).value = List.foldl min bigVal (css.flatten.map (dists s q)) := by
  unfold mergeAll
  rw [foldl_combine_value]
  simp only [minFinderInit]
  rw [foldl_min_perm (hmerge.map MinFinder.value) bigVal, List.map_map]
  rw [show css.map (MinFinder.value ∘ foldChunk s q) =
      css.map fun c => List.foldl min bigVal (c.map (dists s q)) from
    List.map_congr_left fun c _ => by
      simpa [Function.comp, minFinderInit] using foldl_step_value s q c minFinderInit]
  exact foldl_min_chunks (dists s q) css bigVal bigVal (le_refl bigVal)

/-- Helper: any chunked schedule produces the same value component as the
sequential reduction. -/
theorem schedule_value_eq (s : PointStore) (q : Point) (css : List (List ℕ))
    (ps : List MinFinder) (hpart : css.flatten.Perm (List.range s.N))
    (hmerge : ps.Perm (css.map (foldChunk s q))) :
    (mergeAll ps).value = (reduce s q).value := by
  rw [mergeAll_value s q css ps hmerge, reduce_value]
  exact foldl_min_perm (hpart.map (dists s q)) bigVal

/-- Helper: when some squared distance is below the initial `1.0e200`, any
chunked schedule returns the candidate of an index achieving the minimum
squared distance. -/
theorem schedule_result (s : PointStore) (q : Point) (css : List (List ℕ))
    (ps : List MinFinder) (hpart : css.flatten.Perm (List.range s.N))
    (hmerge : ps.Perm (css.map (foldChunk s q)))
    (h : ∃ j, j < s.N ∧ dists s q j < bigVal) :
    ∃ i, i < s.N ∧ mergeAll ps = ⟨dists s q i, (i : ℤ)⟩ ∧
      ∀ j, j < s.N → dists s q i ≤ dists s q j := by
  obtain ⟨j₀, hj₀, hlt₀⟩ := h
  have hval : (mergeAll ps).value = List.foldl min bigVal (css.flatten.map (dists s q)) :=
    mergeAll_value s q css ps hmerge
  have hub : ∀ j, j < s.N → (mergeAll ps).value ≤ dists s q j := by
    intro j hjN
    rw [hval]
    exact foldl_min_le_mem _ _ _
      (List.mem_map_of_mem _ (hpart.mem_iff.mpr (List.mem_range.mpr hjN)))
  have hlt : (mergeAll ps).value < bigVal := lt_of_le_of_lt (hub j₀ hj₀) hlt₀
  rcases foldl_combine_mem ps minFinderInit with hI | hmem
  · have hMI : mergeAll ps = minFinderInit := hI
    rw [hMI] at hlt
    exact absurd hlt (by simp [minFinderInit])
  · obtain ⟨c, hc, hEqc⟩ := List.mem_map.mp (hmerge.mem_iff.mp hmem)
    rcases foldl_step_mem s q c minFinderInit with hI2 | ⟨i, hic, hEqi⟩
    · have hMI : mergeAll ps = minFinderInit := hEqc.symm.trans hI2
      rw [hMI] at hlt
      exact absurd hlt (by simp [minFinderInit])
    · have hM : mergeAll ps = ⟨dists s q i, (i : ℤ)⟩ := hEqc.symm.trans hEqi
      have hiN : i < s.N :=
        List.mem_range.mp (hpart.mem_iff.mp (List.mem_flatten.mpr ⟨c, hc, hic⟩))
      refine ⟨i, hiN, hM, fun j hjN => ?_⟩
      have := hub j hjN
      rw [hM] at this
      exact this

/-- Claim C7: for the store of points (0,0,0), (10,0,0), (3,4,0) and query
(3,4,0), the reduction returns `Found` with squared distance 0 and index 2. -/
theorem reduce_scenario_query_at_stored_point :
    reduce store3 query3 = ⟨0, 2⟩ ∧
    (reduce store3 query3).toResult = ReductionResult.Found 0 2 := by
  have h : reduce store3 query3 = ⟨0, 2⟩ := by
    norm_num [reduce, store3, query3, step, dists, dist2, combine, minFinderInit,
      bigVal, PointStore.N, PointStore.get, List.range_succ]
  refine ⟨h, ?_⟩
  rw [h]
  norm_num [MinFinder.toResult]

/-- Claim C1 (amended): whenever some index has squared distance below the
initial value `1.0e200` (in particular for all points and queries of the
program's own million-sized grid), the reduction returns `Found(d, idx)`
with `idx` a valid index, `d` the squared distance of that index, and no
index having a strictly smaller squared distance.  The amendment is forced
by the `1.0e200` initial value: the claim as stated fails for finite
queries whose distances all reach `1.0e200`. -/
theorem reduce_found_min (s : PointStore) (q : Point)
    (h : ∃ j, j < s.N ∧ dists s q j < bigVal) :
    ∃ i, i < s.N ∧ reduce s q = ⟨dists s q i, (i : ℤ)⟩ ∧
      (reduce s q).toResult = ReductionResult.Found (dists s q i) (i : ℤ) ∧
      ∀ j, j < s.N → dists s q i ≤ dists s q j := by
  obtain ⟨j₀, hj₀, hlt₀⟩ := h
  rcases reduce_spec s q s.N with ⟨_, hAll⟩ | ⟨i, hiN, hEq, _, hmin, _⟩
  · exact absurd hlt₀ (not_lt.mpr (hAll j₀ hj₀))
  · refine ⟨i, hiN, hEq, ?_, hmin⟩
    have hR : reduce s q = (⟨dists s q i, (i : ℤ)⟩ : MinFinder) := hEq
    rw [hR]
    simp [MinFinder.toResult, Int.natCast_nonneg]

/-- Witness for C1 at the concrete scenario store. -/
theorem reduce_found_min_witness :
    ∃ i, i < store3.N ∧ reduce store3 query3 = ⟨dists store3 query3 i, (i : ℤ)⟩ ∧
      (reduce store3 query3).toResult =
        ReductionResult.Found (dists store3 query3 i) (i : ℤ) ∧
      ∀ j, j < store3.N → dists store3 query3 i ≤ dists store3 query3 j :=
  reduce_found_min store3 query3
    ⟨2, by norm_num [store3, PointStore.N],
      by norm_num [dists, dist2, store3, query3, PointStore.get, bigVal]⟩

/-- Counterexample for C1 as stated: a one-point store and a finite query
whose squared distance is exactly `10 ^ 200`.  The strict comparison of
`operator +=` rejects it against the initial `1.0e200`, so the reduction
finishes with the sentinel index `-1` and reports no `Found` winner even
though `N > 0`. -/
theorem reduce_found_min_cex :
    0 < farStore.N ∧ (reduce farStore farQuery).index = -1 ∧
      (reduce farStore farQuery).toResult = ReductionResult.Empty := by
  have h : reduce farStore farQuery = minFinderInit := by
    norm_num [reduce, farStore, farQuery, step, dists, dist2, combine, minFinderInit,
      bigVal, PointStore.N, PointStore.get, List.range_succ]
  refine ⟨by norm_num [farStore, PointStore.N], ?_, ?_⟩
  · rw [h]; rfl
  · rw [h]; rfl

/-- Claim C2: on an empty store the reduction returns the untouched default
accumulator, whose sentinel index `-1` reads back as `Empty`, never as a
`Found` value. -/
theorem reduce_empty_store (s : PointStore) (q : Point) (h : s.N = 0) :
    reduce s q = minFinderInit ∧ (reduce s q).toResult = ReductionResult.Empty := by
  have hR : reduce s q = minFinderInit := by
    unfold reduce
    rw [h]
    rfl
  exact ⟨hR, by rw [hR]; rfl⟩

/-- Witness for C2 on the concrete empty store. -/
theorem reduce_empty_store_witness :
    (⟨[]⟩ : PointStore).N = 0 ∧
      (reduce ⟨[]⟩ originQ = minFinderInit ∧
        (reduce ⟨[]⟩ originQ).toResult = ReductionResult.Empty) :=
  ⟨rfl, reduce_empty_store ⟨[]⟩ originQ rfl⟩

/-- Claim C3 (amended): the reduction's starting element is
`(value = 1.0e200, index = -1)` — a large finite cap with the sentinel
index, not positive infinity — and it behaves as a two-sided identity for
the combine operator exactly on candidates whose value is below that cap.
The amendment is forced because `1.0e200` is not greater than every real
squared distance and the identity laws fail at or above it. -/
theorem minFinder_identity_below_cap :
    minFinderInit = ⟨bigVal, -1⟩ ∧
      ∀ a : MinFinder, a.value < bigVal →
        combine minFinderInit a = a ∧ combine a minFinderInit = a := by
  refine ⟨rfl, fun a h => ⟨?_, ?_⟩⟩
  · simp only [combine, minFinderInit]
    rw [if_pos h]
  · simp only [combine, minFinderInit]
    rw [if_neg (not_lt.mpr h.le)]

/-- Witness for C3 on a concrete below-cap candidate. -/
theorem minFinder_identity_below_cap_witness :
    minFinderInit = ⟨bigVal, -1⟩ ∧
      (combine minFinderInit ⟨25, 3⟩ = ⟨25, 3⟩ ∧ combine ⟨25, 3⟩ minFinderInit = ⟨25, 3⟩) :=
  ⟨minFinder_identity_below_cap.1,
    minFinder_identity_below_cap.2 ⟨25, 3⟩ (by norm_num [bigVal])⟩

/-- Counterexample for C3 as stated: the candidate with value `2 * 10^200`
is absorbed into the initial element instead of being returned, so the
initial element is not a two-sided identity, and a finite point at
`2 * 10^100` on one axis has squared distance to the origin exceeding the
initial value, so that value is not above every real squared distance. -/
theorem minFinder_identity_cex :
    combine minFinderInit ⟨2 * bigVal, 7⟩ = minFinderInit ∧
      minFinderInit ≠ (⟨2 * bigVal, 7⟩ : MinFinder) ∧
      bigVal < dist2 originQ ⟨2 * 10 ^ 100, 0, 0⟩ := by
  refine ⟨?_, ?_, ?_⟩
  · simp only [combine, minFinderInit]
    rw [if_neg (by norm_num [bigVal])]
  · intro hEq
    have h7 : (-1 : ℤ) = 7 := congrArg MinFinder.index hEq
    norm_num at h7
  · norm_num [dist2, originQ, bigVal]

/-- Claim C4: the combine operator returns the operand with strictly
smaller value, and on an exact tie returns one of the two operands — value
and index both taken from a single operand, no new pair invented. -/
theorem combine_select (a b : MinFinder) :
    (a.value < b.value → combine a b = a) ∧
    (b.value < a.value → combine a b = b) ∧
    (a.value = b.value → combine a b = a ∨ combine a b = b) := by
  refine ⟨fun h => ?_, fun h => ?_, fun h => ?_⟩
  · unfold combine
    rw [if_neg (not_lt.mpr h.le)]
  · unfold combine
    rw [if_pos h]
  · unfold combine
    rw [if_neg (not_lt.mpr h.le)]
    exact Or.inl rfl

/-- Witness for C4 on concrete candidate pairs covering all three guards. -/
theorem combine_select_witness :
    combine ⟨1, 0⟩ ⟨2, 1⟩ = ⟨1, 0⟩ ∧ combine ⟨3, 0⟩ ⟨2, 1⟩ = ⟨2, 1⟩ ∧
      (combine ⟨2, 0⟩ ⟨2, 1⟩ = ⟨2, 0⟩ ∨ combine ⟨2, 0⟩ ⟨2, 1⟩ = ⟨2, 1⟩) :=
  ⟨(combine_select ⟨1, 0⟩ ⟨2, 1⟩).1 (by norm_num),
    (combine_select ⟨3, 0⟩ ⟨2, 1⟩).2.1 (by norm_num),
    (combine_select ⟨2, 0⟩ ⟨2, 1⟩).2.2 (by norm_num)⟩

/-- Claim C5: for any partition of the index range into chunks (given by a
list of chunks whose flattening is a permutation of the range) and any
merge order of the per-chunk partial candidates (given by a permutation of
the list of partials), folding every chunk from the default accumulator
and merging the partials yields the same value component as the single
sequential fold. -/
theorem schedule_partition_invariant (s : PointStore) (q : Point)
    (css : List (List ℕ)) (ps : List MinFinder)
    (hpart : css.flatten.Perm (List.range s.N))
    (hmerge : ps.Perm (css.map (foldChunk s q))) :
    (mergeAll ps).value = (reduce s q).value :=
  schedule_value_eq s q css ps hpart hmerge

/-- Witness for C5: the scenario store split into chunks of sizes 1 and 2,
merged in reversed order. -/
theorem schedule_partition_invariant_witness :
    (mergeAll [foldChunk store3 query3 [0, 2], foldChunk store3 query3 [1]]).value =
      (reduce store3 query3).value :=
  schedule_partition_invariant store3 query3 [[1], [0, 2]]
    [foldChunk store3 query3 [0, 2], foldChunk store3 query3 [1]]
    (by decide)
    (List.Perm.swap (foldChunk store3 query3 [1]) (foldChunk store3 query3 [0, 2]) [])

/-- Claim C8 (amended): any two runs of the reduction on the same inputs —
modelled as two arbitrary chunked schedules with arbitrary merge orders —
return identical value components, and whenever some squared distance is
below the initial `1.0e200` each run's result is the candidate of an index
achieving the minimum squared distance.  The amendment is forced by the
`1.0e200` initial value: when every distance reaches it, the returned index
is the sentinel `-1`, which belongs to no set of achieving indices. -/
theorem reduce_two_runs_agree (s : PointStore) (q : Point)
    (css₁ : List (List ℕ)) (ps₁ : List MinFinder)
    (css₂ : List (List ℕ)) (ps₂ : List MinFinder)
    (hpart₁ : css₁.flatten.Perm (List.range s.N))
    (hmerge₁ : ps₁.Perm (css₁.map (foldChunk s q)))
    (hpart₂ : css₂.flatten.Perm (List.range s.N))
    (hmerge₂ : ps₂.Perm (css₂.map (foldChunk s q)))
    (h : ∃ j, j < s.N ∧ dists s q j < bigVal) :
    (mergeAll ps₁).value = (mergeAll ps₂).value ∧
      (∃ i, i < s.N ∧ mergeAll ps₁ = ⟨dists s q i, (i : ℤ)⟩ ∧
        ∀ j, j < s.N → dists s q i ≤ dists s q j) ∧
      (∃ i, i < s.N ∧ mergeAll ps₂ = ⟨dists s q i, (i : ℤ)⟩ ∧
        ∀ j, j < s.N → dists s q i ≤ dists s q j) := by
  refine ⟨?_, schedule_result s q css₁ ps₁ hpart₁ hmerge₁ h,
    schedule_result s q css₂ ps₂ hpart₂ hmerge₂ h⟩
  rw [schedule_value_eq s q css₁ ps₁ hpart₁ hmerge₁,
    schedule_value_eq s q css₂ ps₂ hpart₂ hmerge₂]

/-- Witness for C8: the scenario store under a fully split schedule and a
single-chunk schedule. -/
theorem reduce_two_runs_agree_witness :
    (mergeAll ([[0], [1], [2]].map (foldChunk store3 query3))).value =
        (mergeAll ([[2, 1, 0]].map (foldChunk store3 query3))).value ∧
      (∃ i, i < store3.N ∧
        mergeAll ([[0], [1], [2]].map (foldChunk store3 query3)) =
          ⟨dists store3 query3 i, (i : ℤ)⟩ ∧
        ∀ j, j < store3.N → dists store3 query3 i ≤ dists store3 query3 j) ∧
      (∃ i, i < store3.N ∧
        mergeAll ([[2, 1, 0]].map (foldChunk store3 query3)) =
          ⟨dists store3 query3 i, (i : ℤ)⟩ ∧
        ∀ j, j < store3.N → dists store3 query3 i ≤ dists store3 query3 j) :=
  reduce_two_runs_agree store3 query3 [[0], [1], [2]] _ [[2, 1, 0]] _
    (by decide) (List.Perm.refl _) (by decide) (List.Perm.refl _)
    ⟨2, by norm_num [store3, PointStore.N],
      by norm_num [dists, dist2, store3, query3, PointStore.get, bigVal]⟩

/-- Counterexample for C8 as stated: on a two-point store whose distances
both reach `1.0e200`, the reduction returns the sentinel index `-1`, which
is neither of the two indices achieving the minimum distance. -/
theorem reduce_two_runs_agree_cex :
    farStore2.N = 2 ∧ (reduce farStore2 farQuery).index = -1 ∧
      (reduce farStore2 farQuery).index ≠ 0 ∧ (reduce farStore2 farQuery).index ≠ 1 := by
  have h : reduce farStore2 farQuery = minFinderInit := by
    norm_num [reduce, farStore2, farQuery, step, dists, dist2, combine, minFinderInit,
      bigVal, PointStore.N, PointStore.get, List.range_succ]
  refine ⟨rfl, ?_, ?_, ?_⟩ <;> rw [h] <;> norm_num [minFinderInit]

/-- Claim C9: the benchmark loop is pure: after any number of repetitions
the store is unchanged, and every recorded result is the same reduction of
the original store and query — no state is carried between calls, since
each call starts from a fresh default accumulator. -/
theorem runRepeats_pure (s : PointStore) (q : Point) (n : ℕ) :
    runRepeats s q n = (s, List.replicate n (reduce s q)) := by
  induction n with
  | zero => rfl
  | succ n ih => simp [runRepeats, ih, List.replicate_succ']

/-- Claim C10 (amended): whenever some squared distance is below the
initial `1.0e200`, the sequential left-to-right fold returns the candidate
of the smallest index among all indices achieving the minimum squared
distance, because the accumulator is only overwritten on strict
less-than.  The amendment is forced by the `1.0e200` initial value: when
every distance reaches it, the fold returns the sentinel index `-1`
instead of the smallest achieving index. -/
theorem reduce_least_index_on_tie (s : PointStore) (q : Point)
    (h : ∃ j, j < s.N ∧ dists s q j < bigVal) :
    ∃ i, i < s.N ∧ reduce s q = ⟨dists s q i, (i : ℤ)⟩ ∧
      (∀ j, j < s.N → dists s q i ≤ dists s q j) ∧
      ∀ j, j < s.N → dists s q j = dists s q i → i ≤ j := by
  obtain ⟨j₀, hj₀, hlt₀⟩ := h
  rcases reduce_spec s q s.N with ⟨_, hAll⟩ | ⟨i, hiN, hEq, _, hmin, htie⟩
  · exact absurd hlt₀ (not_lt.mpr (hAll j₀ hj₀))
  · refine ⟨i, hiN, hEq, hmin, fun j hjN hEqd => ?_⟩
    by_contra hji
    push_neg at hji
    exact absurd hEqd (htie j hji).ne'

/-- Witness for C10 on the store with an exact tie between indices 0 and 2:
the fold keeps the earlier index. -/
theorem reduce_least_index_on_tie_witness :
    ∃ i, i < tieStore.N ∧ reduce tieStore originQ = ⟨dists tieStore originQ i, (i : ℤ)⟩ ∧
      (∀ j, j < tieStore.N → dists tieStore originQ i ≤ dists tieStore originQ j) ∧
      ∀ j, j < tieStore.N → dists tieStore originQ j = dists tieStore originQ i → i ≤ j :=
  reduce_least_index_on_tie tieStore originQ
    ⟨0, by norm_num [tieStore, PointStore.N],
      by norm_num [dists, dist2, tieStore, originQ, PointStore.get, bigVal]⟩

/-- Counterexample for C10 as stated: a two-point store whose unique
nearest index to the far query is 0, yet the sequential fold returns the
sentinel index `-1` because both squared distances reach the initial
`1.0e200`. -/
theorem reduce_least_index_on_tie_cex :
    (reduce farStore3 farQuery).index = -1 ∧ (reduce farStore3 farQuery).index ≠ 0 ∧
      dists farStore3 farQuery 0 < dists farStore3 farQuery 1 := by
  have h : reduce farStore3 farQuery = minFinderInit := by
    norm_num [reduce, farStore3, farQuery, step, dists, dist2, combine, minFinderInit,
      bigVal, PointStore.N, PointStore.get, List.range_succ]
  refine ⟨?_, ?_, ?_⟩
  · rw [h]; rfl
  · rw [h]; norm_num [minFinderInit]
  · norm_num [dists, dist2, farStore3, farQuery, PointStore.get]

/-- Claim C6 (code bug): the source has no InvalidCoordinate error path.
With a NaN query coordinate reaching the distance computation, the
distance of every index is NaN under IEEE semantics, every comparison
against it in the combine is false, and the reduction runs to completion
with the untouched default accumulator — reporting the sentinel result
`(1.0e200, -1)` to the caller instead of propagating an error and
aborting, as the specification requires. -/
theorem reduce_nan_completes :
    reduceD [originD] nanQuery = minFinderInitD ∧
      (reduceD [originD] nanQuery).index = -1 ∧
      dist2D nanQuery (getDP [originD] 0) = DblVal.nan := by
  refine ⟨?_, ?_, ?_⟩ <;> rfl
